import Mathlib

/-!
# badgerodon/ssg: the bundling engine of `main.go`

A shallow embedding of the two halves of the bundler:

* `Bundler`: the Go side, `generateJS` (lines 85-149 of `main.go`) together with the
  pieces of the Go standard library it calls (`filepath.Ext`, `strings.Replace`,
  `encoding/base64`, `io.Pipe`, `io.MultiReader`, `io.Copy`).  Go strings and file
  contents are byte sequences.
* `Loader`: the JavaScript side, the functions `expand`, `dirname`, `localRequire`,
  `module`, `window.require` and `window.require.register` of the payload `jsheader`
  (lines 30-83 of `main.go`).  JavaScript strings are sequences of characters.

Modelling choices:

* The destination writer `w` accepts every write, so the only errors are those of opening
  and reading input files.  A reader is the bytes it delivers together with the way it ends
  (`io.EOF` or an error).
* The goroutine of `generateJS` and the pipe it writes to hand bytes over in order, so the
  read end of the pipe delivers exactly what the goroutine wrote before closing it.
* The publication of the file list on the channel `c` has no effect on the bytes written
  or the error returned and is left out.
* In the loader, a module body (and the script using the bundle) is a tree of interactions
  with the runtime: it calls `require` and goes on according to the outcome, exceptions it
  catches included, registers modules, and reads and writes the rest of the JavaScript
  state.  It reaches `registered` and `cache` only through the functions of the runtime,
  as the closure of `jsheader` enforces, and it leaves `window.require` in place.
* `registered` and `cache` are plain objects: a property read finds their own properties
  and the members inherited from `Object.prototype`, which the engine supplies.
* The depth argument of `require` is the room left on the JavaScript call stack, and
  running out of it is the engine's stack overflow exception.
* The value of `require` is `cache[name].exports`, recorded as the `exports` property of
  the module object found; what a body assigns to that property is its own business.
-/

namespace Bundler

/-! ## Bytes and string constants -/

/-- A Go `byte`. -/
abbrev Byte := Fin 256

/-- The bytes of an ASCII string constant of the source. -/
def lit (s : String) : List Byte := s.toList.map (fun c => Fin.ofNat c.toNat)

/-! ## `encoding/base64`, `StdEncoding` -/

/-- The alphabet `encodeStd` of `encoding/base64`. -/
def encodeStd : List Byte :=
  lit "ABCDEFGHIJKLMNOPQRSTUVWXYZabcdefghijklmnopqrstuvwxyz0123456789+/"

/-- The table lookup `enc.encode[i]`. -/
def encodeChar (i : Nat) : Byte := encodeStd.getD i 0

/-- The padding character `StdPadding`, an equals sign. -/
def padChar : Byte := 61

/-- One full group of `Encoding.Encode`: with `val = a<<16 | b<<8 | c` the four output
characters are `encode[val>>18&0x3F]`, `encode[val>>12&0x3F]`, `encode[val>>6&0x3F]`,
`encode[val&0x3F]`.  The three bytes occupy disjoint bits, so the bitwise or is a sum. -/
def encodeBlock (a b c : Byte) : List Byte :=
  let val := a.val * 65536 + b.val * 256 + c.val
  [encodeChar (val / 262144 % 64), encodeChar (val / 4096 % 64),
   encodeChar (val / 64 % 64), encodeChar (val % 64)]

/-- The remainder branch of `Encoding.Encode`: one or two left-over bytes, padded. -/
def encodeTail : List Byte → List Byte
  | [a] =>
    let val := a.val * 65536
    [encodeChar (val / 262144 % 64), encodeChar (val / 4096 % 64), padChar, padChar]
  | [a, b] =>
    let val := a.val * 65536 + b.val * 256
    [encodeChar (val / 262144 % 64), encodeChar (val / 4096 % 64),
     encodeChar (val / 64 % 64), padChar]
  | _ => []

/-- The one-shot encoder `StdEncoding.EncodeToString`: the standard base64 encoding, with
padding, of a whole byte sequence. -/
def encodeToString : List Byte → List Byte
  | a :: b :: c :: rest => encodeBlock a b c ++ encodeToString rest
  | rest => encodeTail rest

/-- The stream encoder returned by `base64.NewEncoder`: `buf` holds the (at most two) bytes
not yet encoded, `out` what has been written to the underlying writer so far. -/
structure Encoder where
  buf : List Byte
  out : List Byte
deriving DecidableEq, Repr

/-- The encoder `base64.NewEncoder(base64.StdEncoding, pw)` before any write. -/
def newEncoder : Encoder := ⟨[], []⟩

/-- The effect of `Write` for one input byte: a third buffered byte completes a group,
which is encoded and written out. -/
def Encoder.writeByte (e : Encoder) (x : Byte) : Encoder :=
  match e.buf with
  | [a, b] => { buf := [], out := e.out ++ encodeBlock a b x }
  | buf => { buf := buf ++ [x], out := e.out }

/-- The method `Write` of the stream encoder. -/
def Encoder.write (e : Encoder) (p : List Byte) : Encoder := p.foldl Encoder.writeByte e

/-- The method `Close` of the stream encoder: flushes the partial group with padding.  The
value is everything the underlying writer has received. -/
def Encoder.close (e : Encoder) : List Byte := e.out ++ encodeTail e.buf

/-- The inverse of the alphabet table (`decodeMap`): the six-bit value of a character. -/
def decodeChar (c : Byte) : Option Nat :=
  let i := encodeStd.indexOf c
  if i < 64 then some i else none

/-- Decode one group of four characters; `n` is the number of bytes it carries. -/
def decodeQuad (c0 c1 c2 c3 : Byte) (n : Nat) : Option (List Byte) :=
  match decodeChar c0, decodeChar c1, decodeChar c2, decodeChar c3 with
  | some s0, some s1, some s2, some s3 =>
    let val := s0 * 262144 + s1 * 4096 + s2 * 64 + s3
    some (([Fin.ofNat (val / 65536), Fin.ofNat (val / 256), Fin.ofNat val] : List Byte).take n)
  | _, _, _, _ => none

/-- Standard base64 decoding (what `atob` computes on a padded base64 string): groups of
four characters, the last of which may end in one or two padding characters. -/
def decodeString : List Byte → Option (List Byte)
  | [] => some []
  | c0 :: c1 :: c2 :: c3 :: rest =>
    if rest = [] ∧ c3 = padChar then
      if c2 = padChar then decodeQuad c0 c1 (encodeChar 0) (encodeChar 0) 1
      else decodeQuad c0 c1 c2 (encodeChar 0) 2
    else
      match decodeQuad c0 c1 c2 c3 3, decodeString rest with
      | some x, some y => some (x ++ y)
      | _, _ => none
  | _ => none

/-! ## Files and readers -/

/-- A file path. -/
abbrev Path := List Byte

/-- An error value (an `error` of Go, identified by a number). -/
abbrev Err := Nat

/-- An `io.Reader`: reading delivers `data` and then ends, with `io.EOF` when `readErr`
is `none` and with the error otherwise. -/
structure Reader where
  data : List Byte
  readErr : Option Err
deriving DecidableEq, Repr

/-- The file system as `os.Open` sees it: a path opens to a readable handle or fails. -/
abbrev FS := Path → Except Err Reader

/-- The reader `strings.NewReader(s)`. -/
def stringsNewReader (s : List Byte) : Reader := ⟨s, none⟩

/-- The call `io.Copy(w, io.MultiReader(readers...))` into a writer that accepts every
write: the readers are drained in order, and the first read error stops the copy and is
returned.  The value is the bytes written and the error returned. -/
def ioCopyMulti : List Reader → List Byte × Option Err
  | [] => ([], none)
  | r :: rs =>
    match r.readErr with
    | some e => (r.data, some e)
    | none => (r.data ++ (ioCopyMulti rs).1, (ioCopyMulti rs).2)

/-! ## `path/filepath` -/

/-- The two families of platforms Go builds for. -/
inductive Platform where
  | unix
  | windows
deriving DecidableEq, Repr

/-- The constant `filepath.Separator`: a slash, or a backslash on Windows. -/
def Platform.separator : Platform → Byte
  | .unix => 47
  | .windows => 92

/-- The function `os.IsPathSeparator`. -/
def Platform.isPathSeparator : Platform → Byte → Bool
  | .unix, c => c == 47
  | .windows, c => c == 92 || c == 47

/-- The loop of `filepath.Ext`, walking the path from its last byte: `acc` is the part
already passed. -/
def extLoop (plat : Platform) : List Byte → List Byte → List Byte
  | [], _ => []
  | c :: before, acc =>
    if plat.isPathSeparator c then []
    else if c = 46 then c :: acc
    else extLoop plat before (c :: acc)

/-- The function `filepath.Ext`: the suffix of the last path element that starts at its
last dot, or the empty string. -/
def ext (plat : Platform) (path : Path) : List Byte := extLoop plat path.reverse []

/-- The function `filepath.Join` of two plain names. -/
def join2 (plat : Platform) (a b : List Byte) : Path := a ++ plat.separator :: b

/-! ## `generateJS` -/

/-- The loader runtime payload `jsheader` (lines 30-83). -/
def jsheader : List Byte := lit (String.join [
  "(function() \x7b\n",
  "var registered = \x7b\x7d,\n",
  "\tcache = \x7b\x7d;\n",
  "\n",
  "var expand = function(root, name) \x7b\n",
  "\tvar results = [], parts, part;\n",
  "\tif (/^\\.\\.?(\\/|$)/.test(name)) \x7b\n",
  "\t\tparts = [root, name].join('/').split('/');\n",
  "\t\x7d else \x7b\n",
  "\t\tparts = name.split('/');\n",
  "\t\x7d\n",
  "\tfor (var i = 0, length = parts.length; i < length; i++) \x7b\n",
  "\t\tpart = parts[i];\n",
  "\t\tif (part === '..') \x7b\n",
  "\t\t\tresults.pop();\n",
  "\t\t\x7d else if (part !== '.' && part !== '') \x7b\n",
  "\t\t\tresults.push(part);\n",
  "\t\t\x7d\n",
  "\t\x7d\n",
  "\treturn results.join('/');\n",
  "\x7d;\n",
  "\n",
  "var dirname = function(path) \x7b\n",
  "\treturn path.split('/').slice(0, -1).join('/');\n",
  "\x7d;\n",
  "\n",
  "var localRequire = function(path) \x7b\n",
  "\treturn function(name) \x7b\n",
  "\t\tvar dir = dirname(path);\n",
  "\t\tvar absolute = expand(dir, name);\n",
  "\t\treturn require(absolute, path);\n",
  "\t\x7d;\n",
  "\x7d;\n",
  "\n",
  "var module = function(name) \x7b\n",
  "\tif (!registered[name]) \x7b\n",
  "\t\tthrow (name + \" not found\");\n",
  "\t\x7d\n",
  "\tvar m = \x7b id: name, exports: \x7b\x7d \x7d;\n",
  "\tregistered[name](m.exports, localRequire(name), m);\n",
  "\treturn m;\n",
  "\x7d;\n",
  "\n",
  "window.global = window;\n",
  "window.require = function(name) \x7b\n",
  "\tcache[name] = cache[name] || module(name);\n",
  "\treturn cache[name].exports;\n",
  "\x7d;\n",
  "window.require.register = function(name, definition) \x7b\n",
  "\tregistered[name] = definition;\n",
  "\x7d;\n",
  "\n",
  "\x7d)();\n"])

/-- The slice expression `s[lo:]`, which panics (`none`) when `lo` exceeds `len(s)`. -/
def sliceFrom (s : List Byte) (lo : Nat) : Option (List Byte) :=
  if lo ≤ s.length then some (s.drop lo) else none

/-- The slice expression `s[:hi]`, which panics (`none`) when `hi` is negative or exceeds
`len(s)`. -/
def sliceTo (s : List Byte) (hi : Int) : Option (List Byte) :=
  if 0 ≤ hi ∧ hi ≤ (s.length : Int) then some (s.take hi.toNat) else none

/-- The call `strings.Replace(s, "\\", "/", -1)`: every backslash becomes a slash. -/
def replaceBackslash (s : List Byte) : List Byte := s.map (fun c => if c = 92 then 47 else c)

/-- Lines 131-132: the module identifier of the app file `fn`,
`strings.Replace(fn[len(root)+1:], "\\", "/", -1)` without its last three bytes. -/
def moduleName (root fn : Path) : Option (List Byte) :=
  match sliceFrom fn (root.length + 1) with
  | none => none
  | some rel => sliceTo (replaceBackslash rel) ((replaceBackslash rel).length - 3)

/-- The source URL line written after the module bytes (line 140). -/
def sourceURL (moduleName : List Byte) : List Byte :=
  lit "\n//# sourceURL=" ++ moduleName ++ lit ".js"

/-- Lines 135-141, the goroutine feeding the pipe: the file is copied into a base64 stream
encoder (the result of that `io.Copy`, error included, is discarded), then the source URL
line is copied into the same encoder, then the encoder and the pipe are closed.  The value
is everything written to the pipe. -/
def pipeOutput (moduleName : List Byte) (fh : Reader) : List Byte :=
  ((newEncoder.write fh.data).write (sourceURL moduleName)).close

/-- The read end `pr` of the pipe: it delivers what the goroutine wrote and then `io.EOF`,
since `pw.Close()` closes the pipe without an error. -/
def pipeReader (moduleName : List Byte) (fh : Reader) : Reader :=
  ⟨pipeOutput moduleName fh, none⟩

/-- Lines 143-145: the three readers appended for one app module. -/
def moduleReaders (moduleName : List Byte) (fh : Reader) : List Reader :=
  [stringsNewReader (lit "require.register(\"" ++ moduleName ++
      lit "\", function(exports, require, module) \x7b\neval(decodeURIComponent(escape(atob(\""),
   pipeReader moduleName fh,
   stringsNewReader (lit "\"))));\n\x7d);\n")]

/-- How a loop of `generateJS` can stop early: `return err`, or a run-time panic. -/
inductive Abort where
  | error (e : Err)
  | panic
deriving DecidableEq, Repr

/-- Lines 113-121: the loop over the vendor files. -/
def vendorReaders (fs : FS) : List Path → Except Abort (List Reader)
  | [] => .ok []
  | fn :: rest =>
    match fs fn with
    | .error e => .error (.error e)
    | .ok fh =>
      match vendorReaders fs rest with
      | .error a => .error a
      | .ok rs => .ok (fh :: stringsNewReader (lit "\n") :: rs)

/-- Lines 125-146: the loop over the app files. -/
def appReaders (fs : FS) (root : Path) : List Path → Except Abort (List Reader)
  | [] => .ok []
  | fn :: rest =>
    match fs fn with
    | .error e => .error (.error e)
    | .ok fh =>
      match moduleName root fn with
      | none => .error .panic
      | some m =>
        match appReaders fs root rest with
        | .error a => .error a
        | .ok rs => .ok (moduleReaders m fh ++ rs)

/-- What a call of `generateJS` does: it returns, having written `out` to `w`, with the
error `err` (`none` is `nil`), or it panics. -/
inductive Outcome where
  | returned (out : List Byte) (err : Option Err)
  | panicked
deriving DecidableEq, Repr

/-- The files a walk collects (lines 90-95 and 99-104): the visited paths whose
`filepath.Ext` is `.js`. -/
def collect (plat : Platform) (walk : List Path) : List Path :=
  walk.filter (fun p => ext plat p = lit ".js")

/-- The root `filepath.Join("vendor", "scripts")`. -/
def vendorRoot (plat : Platform) : Path := join2 plat (lit "vendor") (lit "scripts")

/-- The root `filepath.Join("app", "scripts")`. -/
def appRoot (plat : Platform) : Path := join2 plat (lit "app") (lit "scripts")

/-- The function `generateJS` (lines 85-149), writing into a writer that accepts every
write.  `vendorWalk` and `appWalk` are the paths `filepath.Walk` visits under the two
roots, in its order; `fs` is the file system. -/
def generateJS (plat : Platform) (fs : FS) (vendorWalk appWalk : List Path) : Outcome :=
  let vendorFiles := collect plat vendorWalk
  let files := collect plat appWalk
  match vendorReaders fs vendorFiles with
  | .error (.error e) => .returned [] (some e)
  | .error .panic => .panicked
  | .ok vs =>
    match appReaders fs (appRoot plat) files with
    | .error (.error e) => .returned [] (some e)
    | .error .panic => .panicked
    | .ok as =>
      let r := ioCopyMulti (vs ++ stringsNewReader jsheader :: as)
      .returned r.1 r.2

/-! ## Definitions used to state the claims -/

/-- The characters of the standard base64 alphabet with padding: `A-Z`, `a-z`, `0-9`,
plus, slash and the equals sign. -/
def isBase64Char (c : Byte) : Bool :=
  (65 ≤ c.val && c.val ≤ 90) || (97 ≤ c.val && c.val ≤ 122) || (48 ≤ c.val && c.val ≤ 57) ||
    c.val == 43 || c.val == 47 || c.val == 61

/-- The Module Encoder fragment in the form the specification gives it: the register call
around the standard base64 encoding of the module bytes followed by the source URL line. -/
def fragment (m b : List Byte) : List Byte :=
  lit "require.register(\"" ++ m ++
    lit "\", function(exports, require, module) \x7b\neval(decodeURIComponent(escape(atob(\"" ++
    encodeToString (b ++ lit "\n//# sourceURL=" ++ m ++ lit ".js") ++
    lit "\"))));\n\x7d);\n"

/-- The bytes a successful read of the file at `p` delivers. -/
def contents (fs : FS) (p : Path) : List Byte :=
  match fs p with
  | .ok r => r.data
  | .error _ => []

/-- The relative path with every platform path separator replaced by a slash, as the
specification words the Path Normalizer. -/
def normalise (plat : Platform) (rel : List Byte) : List Byte :=
  rel.map (fun c => if c = plat.separator then 47 else c)

/-- A file system in which the app file `app/scripts/m.js` opens but cannot be read (a
directory of that name, for instance) and nothing else exists. -/
def unreadableModuleFS : FS := fun p =>
  if p = lit "app/scripts/m.js" then .ok ⟨[], some 5⟩ else .error 2

/-- A file system in which the vendor file `vendor/scripts/j.js` opens but cannot be read
and nothing else exists. -/
def unreadableVendorFS : FS := fun p =>
  if p = lit "vendor/scripts/j.js" then .ok ⟨[], some 5⟩ else .error 2

/-- A file system with one vendor file and one app file, both readable. -/
def sampleFS : FS := fun p =>
  if p = lit "vendor/scripts/jquery.js" then .ok ⟨lit "var $;", none⟩
  else if p = lit "app/scripts/main.js" then .ok ⟨lit "x=1", none⟩
  else .error 2

end Bundler

namespace Loader

/-! ## Strings and arrays of JavaScript -/

/-- A JavaScript string. -/
abbrev Str := List Char

/-- The call `s.split('/')`: the pieces of `s` between slashes (one piece for a string
without a slash, the empty string included). -/
def split : Str → List Str
  | [] => [[]]
  | c :: cs =>
    if c = '/' then [] :: split cs
    else
      match split cs with
      | [] => [[c]]
      | s :: ss => (c :: s) :: ss

/-- The call `parts.join('/')`. -/
def join : List Str → Str
  | [] => []
  | [s] => s
  | s :: t :: ss => s ++ '/' :: join (t :: ss)

/-- The test `/^\.\.?(\/|$)/.test(name)`: the name starts with one or two dots that are
followed by a slash or by the end of the name. -/
def isRelative : Str → Bool
  | ['.'] => true
  | '.' :: '/' :: _ => true
  | ['.', '.'] => true
  | '.' :: '.' :: '/' :: _ => true
  | _ => false

/-! ## The loader runtime (`jsheader`) -/

/-- The body of the `for` loop of `expand`: two dots pop the last accumulated segment
(`pop` of an empty array does nothing), a single dot and the empty segment are skipped,
anything else is pushed. -/
def expandStep (results : List Str) (part : Str) : List Str :=
  if part = ['.', '.'] then results.dropLast
  else if part ≠ ['.'] ∧ part ≠ [] then results ++ [part]
  else results

/-- The function `expand` of the runtime. -/
def expand (root name : Str) : Str :=
  let parts := if isRelative name then split (join [root, name]) else split name
  join (parts.foldl expandStep [])

/-- The function `dirname` of the runtime: `path.split('/').slice(0, -1).join('/')`. -/
def dirname (path : Str) : Str := join (split path).dropLast

/-- What the JavaScript engine contributes to the two plain objects of the runtime: the
names under which `Object.prototype` holds a truthy member (`toString`, `constructor`, ...;
the accessor `__proto__` is treated apart), and the names under which a function object
holds a truthy member of its own or of `Function.prototype` (`call`, `length`, ...). -/
structure Engine where
  objectMember : Str → Bool
  functionMember : Str → Bool

/-- The members of a standard engine. -/
def standardEngine : Engine where
  objectMember := fun name => name ∈ ["constructor".toList, "hasOwnProperty".toList,
    "isPrototypeOf".toList, "propertyIsEnumerable".toList, "toLocaleString".toList,
    "toString".toList, "valueOf".toList, "__defineGetter__".toList, "__defineSetter__".toList,
    "__lookupGetter__".toList, "__lookupSetter__".toList]
  functionMember := fun name => name ∈ ["apply".toList, "bind".toList, "call".toList,
    "length".toList, "prototype".toList]

/-- The property name of the prototype accessor. -/
def protoName : Str := "__proto__".toList

/-- The module object `m = { id: name, exports: {} }`; `exports` is the number under which
the object literal was allocated, which identifies the module object. -/
structure Module where
  id : Str
  exports : Nat
deriving DecidableEq, Repr

/-- The value of a `require` call, `cache[name].exports`: the `exports` property of the
module object found in the cache (a factory may have assigned it anew), or `undefined`
when `cache[name]` is a member inherited from `Object.prototype`. -/
inductive Value where
  | exportsOf (m : Module)
  | undefined
deriving DecidableEq, Repr

/-- An exception: the string `name + " not found"` thrown by `module`, the type error of
calling something that is not a function, the engine running out of call stack, or a value
thrown by a module body. -/
inductive Failure where
  | notFound (message : Str)
  | typeError
  | stackOverflow
  | user (value : Nat)
deriving DecidableEq, Repr

/-- One `require` call made by a script: through a closure `localRequire(path)` (the
`require` parameter the factory of `path` was given), or through `window.require`. -/
inductive Call where
  | viaLocal (path : Str) (name : Str)
  | viaWindow (name : Str)
deriving DecidableEq, Repr

/-- A piece of JavaScript as far as the loader can observe it (a module body, or the script
that uses the bundle): it returns, throws, calls `require` and goes on according to the
outcome (a value, or an exception it has caught), calls `window.require.register`, or
reads and writes the rest of the JavaScript state, which is summed up in a number. -/
inductive Prog where
  | done : Prog
  | throw (f : Failure) : Prog
  | call (c : Call) (next : Except Failure Value → Prog) : Prog
  | register (name : Str) (definition : Nat → Str → Module → Prog) (next : Prog) : Prog
  | read (next : Nat → Prog) : Prog
  | write (user : Nat) (next : Prog) : Prog

/-- A registered factory `function(exports, require, module)`: its body, given the exports
object, the closure `localRequire(path)` (named by its path) and the module object. -/
abbrev Factory := Nat → Str → Module → Prog

/-- The object `registered`: its own properties, the latest first, and the function that
has replaced its prototype, if an assignment to `__proto__` has. -/
structure Registered where
  own : List (Str × Factory)
  proto : Option Factory

/-- The own-property read on an object holding the listed pairs. -/
def lookup {β : Type} (name : Str) : List (Str × β) → Option β
  | [] => none
  | (k, v) :: rest => if k = name then some v else lookup name rest

/-- What a property read finds in `cache`: a module object stored by the runtime, a truthy
member inherited from `Object.prototype`, or nothing (`undefined`). -/
inductive CacheSlot where
  | own (m : Module)
  | inherited
  | absent
deriving DecidableEq, Repr

/-- The property read `cache[name]`. -/
def cacheGet (engine : Engine) (cache : List (Str × Module)) (name : Str) : CacheSlot :=
  match lookup name cache with
  | some m => .own m
  | none => if name = protoName ∨ engine.objectMember name = true then .inherited else .absent

/-- What a property read finds in `registered`: a registered factory, some other truthy
value (an inherited member), or nothing. -/
inductive RegisteredSlot where
  | factory (definition : Factory)
  | other
  | absent

/-- The property read `registered[name]`. -/
def registeredGet (engine : Engine) (registered : Registered) (name : Str) : RegisteredSlot :=
  match lookup name registered.own with
  | some definition => .factory definition
  | none =>
    if name = protoName then
      match registered.proto with
      | some definition => .factory definition
      | none => .other
    else if engine.objectMember name = true then .other
    else if registered.proto.isSome = true ∧ engine.functionMember name = true then .other
    else .absent

/-- The function `window.require.register`: `registered[name] = definition`.  Under the
name `__proto__` the assignment replaces the prototype of `registered`. -/
def register (registered : Registered) (name : Str) (definition : Factory) : Registered :=
  if name = protoName then ⟨registered.own, some definition⟩
  else ⟨(name, definition) :: registered.own, registered.proto⟩

/-- What is recorded of an evaluation: a registered factory is invoked (`nested` tells
whether an earlier invocation of the factory of the same name was still running), a
factory returns, a factory ends by an exception, a `require` call returns a value. -/
inductive Event where
  | invoke (name : Str) (nested : Bool)
  | finish (name : Str)
  | abort (name : Str)
  | returned (name : Str) (value : Value)
deriving DecidableEq, Repr

/-- The state of one evaluated bundle: the objects `registered` and `cache`, the next
unused object number, the rest of the JavaScript state, and two records kept for the
statements below: the names whose factory is running, innermost first, and the events so
far. -/
structure State where
  registered : Registered
  cache : List (Str × Module)
  fresh : Nat
  user : Nat
  running : List Str
  trace : List Event

/-- The state right after the runtime has been evaluated. -/
def State.init : State := ⟨⟨[], none⟩, [], 0, 0, [], []⟩

/-- A computation in the runtime that ends with a value or an exception. -/
abbrev Eval (α : Type) := State → Except Failure α × State

/-- The function `localRequire` of the runtime; `req` is the global `require`. -/
def localRequire {α : Type} (req : Str → Eval α) (path : Str) : Str → Eval α :=
  fun name => req (expand (dirname path) name)

/-- The execution of a piece of JavaScript; `req` is the global `require`. -/
def runProg (req : Str → Eval Value) : Prog → Eval Unit
  | .done, st => (.ok (), st)
  | .throw f, st => (.error f, st)
  | .call c next, st =>
    let r := match c with
      | .viaLocal path name => localRequire req path name st
      | .viaWindow name => req name st
    runProg req (next r.1) r.2
  | .register name definition next, st =>
    runProg req next
      ⟨register st.registered name definition, st.cache, st.fresh, st.user, st.running, st.trace⟩
  | .read next, st => runProg req (next st.user) st
  | .write user next, st =>
    runProg req next ⟨st.registered, st.cache, st.fresh, user, st.running, st.trace⟩

/-- The function `module` of the runtime; `req` is the global `require`.  An inherited
member found in `registered` is called like a factory, which is a type error for the
members a function contributes; for the members of `Object.prototype` the case does not
arise, `require` finding the same member in `cache` first. -/
def module (engine : Engine) (req : Str → Eval Value) (name : Str) : Eval Module :=
  fun st =>
    match registeredGet engine st.registered name with
    | .absent => (.error (.notFound (name ++ " not found".toList)), st)
    | .other => (.error .typeError, st)
    | .factory definition =>
      let m : Module := ⟨name, st.fresh⟩
      let st1 : State := ⟨st.registered, st.cache, st.fresh + 1, st.user, name :: st.running,
        st.trace ++ [.invoke name (decide (name ∈ st.running))]⟩
      match runProg req (definition m.exports name m) st1 with
      | (.ok _, st2) =>
        (.ok m, ⟨st2.registered, st2.cache, st2.fresh, st2.user, st2.running.tail,
          st2.trace ++ [.finish name]⟩)
      | (.error f, st2) =>
        (.error f, ⟨st2.registered, st2.cache, st2.fresh, st2.user, st2.running.tail,
          st2.trace ++ [.abort name]⟩)

/-- The function `window.require` of the runtime.  `depth` is the number of nested
`require` calls the call stack still has room for.  When `cache[name]` is truthy the
assignment writes back the value just read; otherwise `name` is not `__proto__` and the
assignment of the module object makes a new own property of `cache`. -/
def require (engine : Engine) : Nat → Str → Eval Value
  | 0, _, st => (.error .stackOverflow, st)
  | depth + 1, name, st =>
    match cacheGet engine st.cache name with
    | .own m =>
      (.ok (.exportsOf m), ⟨st.registered, st.cache, st.fresh, st.user, st.running,
        st.trace ++ [.returned name (.exportsOf m)]⟩)
    | .inherited =>
      (.ok .undefined, ⟨st.registered, st.cache, st.fresh, st.user, st.running,
        st.trace ++ [.returned name .undefined]⟩)
    | .absent =>
      match module engine (require engine depth) name st with
      | (.ok m, st2) =>
        (.ok (.exportsOf m), ⟨st2.registered, (name, m) :: st2.cache, st2.fresh, st2.user,
          st2.running, st2.trace ++ [.returned name (.exportsOf m)]⟩)
      | (.error f, st2) => (.error f, st2)

/-- One evaluation: a script run against a freshly evaluated runtime, each of its
`require` calls having `depth` levels of call stack. -/
def evaluate (engine : Engine) (depth : Nat) (script : Prog) : State :=
  (runProg (require engine depth) script State.init).2

/-! ## Definitions used to state the claims -/

/-- An ordinary path segment: not empty, not a single dot, not two dots. -/
def ordinary (seg : Str) : Prop := seg ≠ [] ∧ seg ≠ ['.'] ∧ seg ≠ ['.', '.']

instance : DecidablePred ordinary := fun seg => by unfold ordinary; infer_instance

/-- The name `x` behind `k` leading two-dot segments: `../../x` for `k = 2`. -/
def up : Nat → Str → Str
  | 0, x => x
  | k + 1, x => '.' :: '.' :: '/' :: up k x

/-- Whether an event is an invocation of the factory registered under `name`. -/
def isInvoke (name : Str) : Event → Bool
  | .invoke n _ => decide (n = name)
  | _ => false

/-- The number of times the factory registered under `name` has been invoked. -/
def invocations (name : Str) (trace : List Event) : Nat := trace.countP (isInvoke name)

/-- The value `cache[name].exports` a `require` call finds, if `cache[name]` is truthy. -/
def cacheValue (engine : Engine) (cache : List (Str × Module)) (name : Str) : Option Value :=
  match cacheGet engine cache name with
  | .own m => some (.exportsOf m)
  | .inherited => some .undefined
  | .absent => none

/-- The relation between the cache, the running factories and the events that every
evaluation maintains: a running module is uncached unless its factory was invoked while
already running; a module whose factory was never invoked while running and never ended by
an exception has been invoked at most once, and if once it is running or cached; and every
value returned for a name whose factory was never invoked while running is the value the
cache holds for that name. -/
def GoodAt (engine : Engine) (cache : List (Str × Module)) (running : List Str)
    (trace : List Event) : Prop :=
  (∀ n, n ∈ running → Event.invoke n true ∈ trace ∨ lookup n cache = none) ∧
    (∀ n, Event.invoke n true ∈ trace ∨ Event.abort n ∈ trace ∨
      (invocations n trace ≤ 1 ∧
        (invocations n trace = 1 → n ∈ running ∨ lookup n cache ≠ none))) ∧
    (∀ n v, Event.returned n v ∈ trace →
      Event.invoke n true ∈ trace ∨ cacheValue engine cache n = some v)

/-- A computation keeps the relation `GoodAt`, leaves the record of running factories as
it found it, and only adds events. -/
def Preserves {α : Type} (engine : Engine) (f : Eval α) : Prop :=
  ∀ st, GoodAt engine st.cache st.running st.trace →
    GoodAt engine (f st).2.cache (f st).2.running (f st).2.trace ∧
      (f st).2.running = st.running ∧ ∀ e ∈ st.trace, e ∈ (f st).2.trace

/-- A module body that makes the given calls through its `require` parameter, one after
the other, and lets exceptions pass. -/
def requiring : List Str → Factory
  | [], _, _, _ => .done
  | name :: rest, e, r, m =>
    .call (.viaLocal r name) (fun outcome =>
      match outcome with
      | .ok _ => requiring rest e r m
      | .error f => .throw f)

/-- A module body that makes the given calls through its `require` parameter inside
`try ... catch`, ignoring every exception. -/
def requiringCaught : List Str → Factory
  | [], _, _, _ => .done
  | name :: rest, e, r, m => .call (.viaLocal r name) (fun _ => requiringCaught rest e r m)

/-- A script that makes the given top-level `require` calls, each on its own (an exception
ends only the call that raised it). -/
def requireEach : List Str → Prog
  | [] => .done
  | name :: rest => .call (.viaWindow name) (fun _ => requireEach rest)

/-- A bundle in which module `a` requires `./a` from its own body, required once. -/
def selfRequiring : Prog :=
  .register "a".toList (requiring ["./a".toList]) (requireEach ["a".toList])

/-- A bundle in which module `a` requires `./a` from its own body and catches the
exception, required once. -/
def selfRequiringCaught : Prog :=
  .register "a".toList (requiringCaught ["./a".toList]) (requireEach ["a".toList])

/-- A bundle in which the body of module `b` requires a module that is not registered,
required twice. -/
def failingTwice : Prog :=
  .register "b".toList (requiring ["./missing".toList]) (requireEach ["b".toList, "b".toList])

/-- A bundle with the modules `main`, `util` and `lib/x` (`main` requires `./util` and
`./lib/x`, and `lib/x` requires `../util`), used by a script that requires `util`, `main`,
`lib/x`, `util` again and `toString`. -/
def sampleBundle : Prog :=
  .register "lib/x".toList (requiring ["../util".toList])
    (.register "util".toList (requiring [])
      (.register "main".toList (requiring ["./util".toList, "./lib/x".toList])
        (requireEach ["util".toList, "main".toList, "lib/x".toList, "util".toList,
          "toString".toList])))

end Loader

namespace Bundler

/-! ## base64: the stream encoder against the one-shot encoder -/

theorem encodeToString_block (a b c : Byte) (rest : List Byte) :
    encodeToString (a :: b :: c :: rest) = encodeBlock a b c ++ encodeToString rest := by
  rw [encodeToString]

theorem encodeToString_short (l : List Byte) (h : l.length < 3) :
    encodeToString l = encodeTail l := by
  match l, h with
  | [], _ => rw [encodeToString]; intro a b c rest h; cases h
  | [_], _ => rw [encodeToString]; intro a b c rest h; cases h
  | [_, _], _ => rw [encodeToString]; intro a b c rest h; cases h

theorem write_close (p : List Byte) : ∀ (buf out : List Byte), buf.length < 3 →
    (Encoder.write ⟨buf, out⟩ p).close = out ++ encodeToString (buf ++ p) := by
  induction p with
  | nil =>
    intro buf out h
    simp [Encoder.write, Encoder.close, encodeToString_short buf h]
  | cons x xs ih =>
    intro buf out h
    match buf, h with
    | [], _ =>
      have := ih [x] out (by simp)
      simpa [Encoder.write, Encoder.writeByte] using this
    | [a], _ =>
      have := ih [a, x] out (by simp)
      simpa [Encoder.write, Encoder.writeByte] using this
    | [a, b], _ =>
      have := ih [] (out ++ encodeBlock a b x) (by simp)
      simp only [Encoder.write, List.foldl_cons, Encoder.writeByte] at this ⊢
      rw [this]
      simp [encodeToString_block]

theorem write_write (e : Encoder) (p q : List Byte) : (e.write p).write q = e.write (p ++ q) := by
  simp [Encoder.write, List.foldl_append]

theorem pipeOutput_eq (m : List Byte) (fh : Reader) :
    pipeOutput m fh = encodeToString (fh.data ++ sourceURL m) := by
  unfold pipeOutput
  rw [write_write]
  have := write_close (fh.data ++ sourceURL m) [] [] (by simp)
  simpa [newEncoder] using this

/-! ## base64: the alphabet -/

theorem encodeChar_base64 : ∀ i : Fin 64, isBase64Char (encodeChar i.val) = true := by decide

theorem decodeChar_encodeChar : ∀ i : Fin 64, decodeChar (encodeChar i.val) = some i.val := by
  decide

theorem encodeChar_ne_pad : ∀ i : Fin 64, encodeChar i.val ≠ padChar := by decide

theorem encodeChar_mod_base64 (n : Nat) : isBase64Char (encodeChar (n % 64)) = true :=
  encodeChar_base64 ⟨n % 64, Nat.mod_lt _ (by decide)⟩

theorem encodeTail_base64 (l : List Byte) : ∀ c ∈ encodeTail l, isBase64Char c = true := by
  have hp : isBase64Char padChar = true := by decide
  match l with
  | [] => simp [encodeTail]
  | [a] =>
    intro c hc
    simp only [encodeTail, List.mem_cons, List.mem_singleton, List.not_mem_nil, or_false] at hc
    rcases hc with h | h | h | h <;> subst h <;> first | exact encodeChar_mod_base64 _ | exact hp
  | [a, b] =>
    intro c hc
    simp only [encodeTail, List.mem_cons, List.mem_singleton, List.not_mem_nil, or_false] at hc
    rcases hc with h | h | h | h <;> subst h <;> first | exact encodeChar_mod_base64 _ | exact hp
  | _ :: _ :: _ :: _ => simp [encodeTail]

theorem encodeToString_base64 (l : List Byte) : ∀ c ∈ encodeToString l, isBase64Char c = true := by
  induction l using encodeToString.induct with
  | case1 a b c rest ih =>
    intro x hx
    rw [encodeToString_block, List.mem_append] at hx
    rcases hx with hx | hx
    · simp only [encodeBlock, List.mem_cons, List.mem_singleton, List.not_mem_nil, or_false] at hx
      rcases hx with h | h | h | h <;> subst h <;> exact encodeChar_mod_base64 _
    · exact ih x hx
  | case2 rest hrest =>
    intro x hx
    rw [encodeToString] at hx
    · exact encodeTail_base64 rest x hx
    · exact hrest

/-! ## base64: decoding undoes encoding -/

theorem decodeChar_encodeChar_mod (n : Nat) : decodeChar (encodeChar (n % 64)) = some (n % 64) :=
  decodeChar_encodeChar ⟨n % 64, Nat.mod_lt _ (by decide)⟩

theorem encodeChar_mod_ne_pad (n : Nat) : encodeChar (n % 64) ≠ padChar :=
  encodeChar_ne_pad ⟨n % 64, Nat.mod_lt _ (by decide)⟩

theorem decodeQuad_encodeChar (s0 s1 s2 s3 n : Nat) :
    decodeQuad (encodeChar (s0 % 64)) (encodeChar (s1 % 64)) (encodeChar (s2 % 64))
        (encodeChar (s3 % 64)) n =
      some (([Fin.ofNat ((s0 % 64 * 262144 + s1 % 64 * 4096 + s2 % 64 * 64 + s3 % 64) / 65536),
        Fin.ofNat ((s0 % 64 * 262144 + s1 % 64 * 4096 + s2 % 64 * 64 + s3 % 64) / 256),
        Fin.ofNat (s0 % 64 * 262144 + s1 % 64 * 4096 + s2 % 64 * 64 + s3 % 64)] : List Byte).take n) := by
  simp [decodeQuad, decodeChar_encodeChar_mod]

theorem byte_ofNat (x : Byte) (n : Nat) (h : n % 256 = x.val) : (Fin.ofNat n : Byte) = x := by
  apply Fin.ext
  simpa [Fin.ofNat] using h

theorem decodeQuad_encodeBlock (a b c : Byte) :
    decodeQuad (encodeChar ((a.val * 65536 + b.val * 256 + c.val) / 262144 % 64))
        (encodeChar ((a.val * 65536 + b.val * 256 + c.val) / 4096 % 64))
        (encodeChar ((a.val * 65536 + b.val * 256 + c.val) / 64 % 64))
        (encodeChar ((a.val * 65536 + b.val * 256 + c.val) % 64)) 3 = some [a, b, c] := by
  rw [decodeQuad_encodeChar]
  have ha := a.isLt
  have hb := b.isLt
  have hc := c.isLt
  simp only [List.take_succ_cons, List.take_zero, Option.some.injEq, List.cons.injEq, and_true]
  refine ⟨byte_ofNat _ _ ?_, byte_ofNat _ _ ?_, byte_ofNat _ _ ?_⟩ <;> omega

theorem decodeString_encodeTail (l : List Byte) (h : l.length < 3) :
    decodeString (encodeTail l) = some l := by
  match l, h with
  | [], _ => simp [encodeTail, decodeString]
  | [a], _ =>
    have ha := a.isLt
    have h0 : encodeChar 0 = encodeChar (0 % 64) := rfl
    simp only [encodeTail, decodeString, and_self, if_true]
    rw [h0, decodeQuad_encodeChar]
    simp only [List.take_succ_cons, List.take_zero, Option.some.injEq, List.cons.injEq, and_true]
    exact byte_ofNat _ _ (by omega)
  | [a, b], _ =>
    have ha := a.isLt
    have hb := b.isLt
    have h0 : encodeChar 0 = encodeChar (0 % 64) := rfl
    simp only [encodeTail, decodeString, and_self, if_true, encodeChar_mod_ne_pad, if_false]
    rw [h0, decodeQuad_encodeChar]
    simp only [List.take_succ_cons, List.take_zero, Option.some.injEq, List.cons.injEq, and_true]
    exact ⟨byte_ofNat _ _ (by omega), byte_ofNat _ _ (by omega)⟩

theorem decodeString_encodeToString (l : List Byte) :
    decodeString (encodeToString l) = some l := by
  induction l using encodeToString.induct with
  | case1 a b c rest ih =>
    rw [encodeToString_block]
    simp only [encodeBlock, List.cons_append, List.nil_append, decodeString,
      encodeChar_mod_ne_pad, and_false, if_false]
    rw [decodeQuad_encodeBlock]
    have h : ([] : List Byte).append (encodeToString rest) = encodeToString rest := rfl
    rw [h, ih]
    rfl
  | case2 rest hrest =>
    have hlen : rest.length < 3 := by
      match rest, hrest with
      | [], _ => simp
      | [_], _ => simp
      | [_, _], _ => simp
      | a :: b :: c :: r, h => exact absurd rfl (h a b c r)
    rw [encodeToString_short rest hlen]
    exact decodeString_encodeTail rest hlen

/-! ## `io.Copy` over several readers -/

theorem ioCopyMulti_append (xs ys : List Reader) (h : (ioCopyMulti xs).2 = none) :
    ioCopyMulti (xs ++ ys) = ((ioCopyMulti xs).1 ++ (ioCopyMulti ys).1, (ioCopyMulti ys).2) := by
  induction xs with
  | nil => simp [ioCopyMulti]
  | cons r rs ih =>
    cases hr : r.readErr with
    | some e => simp [ioCopyMulti, hr] at h
    | none =>
      simp only [ioCopyMulti, hr] at h
      simp [ioCopyMulti, hr, ih h]

theorem ioCopyMulti_moduleReaders (m : List Byte) (fh : Reader) :
    ioCopyMulti (moduleReaders m fh) = (fragment m fh.data, none) := by
  simp [ioCopyMulti, moduleReaders, stringsNewReader, pipeReader, pipeOutput_eq, fragment,
    sourceURL]

/-! ## `filepath.Ext` and the module identifier -/

theorem extLoop_spec (plat : Platform) : ∀ (rev acc : List Byte), extLoop plat rev acc ≠ [] →
    ∃ pre rest, rev = pre ++ rest ∧ extLoop plat rev acc = pre.reverse ++ acc ∧
      ∀ c ∈ pre, plat.isPathSeparator c = false := by
  intro rev
  induction rev with
  | nil => intro acc h; simp [extLoop] at h
  | cons c before ih =>
    intro acc h
    rw [extLoop] at h ⊢
    by_cases hs : plat.isPathSeparator c = true
    · simp [hs] at h
    · simp only [hs, if_false] at h ⊢
      have hs2 : plat.isPathSeparator c = false := by simpa using hs
      by_cases hd : c = 46
      · refine ⟨[c], before, rfl, ?_, ?_⟩
        · simp [hd]
        · intro x hx
          simp only [List.mem_singleton] at hx
          rw [hx]; exact hs2
      · simp only [hd, if_false] at h ⊢
        obtain ⟨pre, rest, h1, h2, h3⟩ := ih (c :: acc) h
        refine ⟨c :: pre, rest, by simp [h1], by simp [h2], ?_⟩
        intro x hx
        rcases List.mem_cons.mp hx with hx | hx
        · rw [hx]; exact hs2
        · exact h3 x hx

theorem separator_isPathSeparator (plat : Platform) :
    plat.isPathSeparator plat.separator = true := by
  cases plat <;> decide

theorem ext_js_suffix (plat : Platform) (root rel : List Byte)
    (h : ext plat (root ++ plat.separator :: rel) = lit ".js") :
    ∃ stem, rel = stem ++ lit ".js" := by
  have hne : extLoop plat (root ++ plat.separator :: rel).reverse [] ≠ [] := by
    have h2 : extLoop plat (root ++ plat.separator :: rel).reverse [] = lit ".js" := h
    rw [h2]; decide
  obtain ⟨pre, rest, h1, h2, h3⟩ := extLoop_spec plat _ [] hne
  have h4 : pre.reverse = lit ".js" := by
    have h5 : extLoop plat (root ++ plat.separator :: rel).reverse [] = lit ".js" := h
    rw [h5] at h2
    simpa using h2.symm
  have h6 : root ++ plat.separator :: rel = rest.reverse ++ lit ".js" := by
    have := congrArg List.reverse h1
    simpa [h4] using this
  have hnosep : plat.separator ∉ lit ".js" := by
    intro hm
    have hm2 : plat.separator ∈ pre := by
      have : plat.separator ∈ pre.reverse := by rw [h4]; exact hm
      simpa using this
    have := h3 _ hm2
    rw [separator_isPathSeparator] at this
    cases this
  rcases List.append_eq_append_iff.mp h6 with ⟨a, _, ha⟩ | ⟨c, _, hc⟩
  · cases a with
    | nil =>
      exfalso; apply hnosep
      simp only [List.nil_append] at ha
      rw [← ha]; simp
    | cons x a =>
      simp only [List.cons_append, List.cons.injEq] at ha
      exact ⟨a, ha.2⟩
  · exfalso; apply hnosep
    rw [hc]; simp

theorem replaceBackslash_js (stem : List Byte) :
    replaceBackslash (stem ++ lit ".js") = replaceBackslash stem ++ lit ".js" := by
  have : replaceBackslash (lit ".js") = lit ".js" := by decide
  simp only [replaceBackslash, List.map_append] at this ⊢
  rw [this]

theorem moduleName_stem (root stem : List Byte) (sep : Byte) :
    moduleName root (root ++ sep :: (stem ++ lit ".js")) = some (replaceBackslash stem) := by
  have hlen : (lit ".js").length = 3 := by decide
  have h1 : sliceFrom (root ++ sep :: (stem ++ lit ".js")) (root.length + 1)
      = some (stem ++ lit ".js") := by
    simp [sliceFrom, List.drop_append]
  simp only [moduleName, h1, replaceBackslash_js, sliceTo, List.length_append, hlen]
  have h2 : (0 : Int) ≤ ((replaceBackslash stem).length + 3 : Nat) - 3 ∧
      ((replaceBackslash stem).length + 3 : Nat) - (3 : Int) ≤ ((replaceBackslash stem).length + 3 : Nat) := by
    constructor <;> omega
  rw [if_pos h2]
  have h3 : (((replaceBackslash stem).length + 3 : Nat) - (3 : Int)).toNat
      = (replaceBackslash stem).length := by omega
  rw [h3]
  simp

theorem replaceBackslash_no_backslash (s : List Byte) : (92 : Byte) ∉ replaceBackslash s := by
  intro h
  simp only [replaceBackslash, List.mem_map] at h
  obtain ⟨c, _, hc⟩ := h
  by_cases h92 : c = 92
  · simp [h92] at hc
  · rw [if_neg h92] at hc
    exact h92 hc

theorem vendorReaders_ok (fs : FS) : ∀ (files : List Path),
    (∀ p ∈ files, ∃ b, fs p = .ok ⟨b, none⟩) →
    ∃ rs, vendorReaders fs files = .ok rs ∧
      ioCopyMulti rs = (files.flatMap (fun p => contents fs p ++ lit "\n"), none) := by
  intro files
  induction files with
  | nil => intro _; exact ⟨[], rfl, rfl⟩
  | cons fn rest ih =>
    intro h
    obtain ⟨b, hb⟩ := h fn (List.mem_cons_self _ _)
    obtain ⟨rs, h1, h2⟩ := ih (fun p hp => h p (List.mem_cons_of_mem _ hp))
    refine ⟨⟨b, none⟩ :: stringsNewReader (lit "\n") :: rs, by simp only [vendorReaders, hb, h1], ?_⟩
    simp [ioCopyMulti, stringsNewReader, h2, contents, hb]

theorem appReaders_ok (fs : FS) (plat : Platform) (root : Path) : ∀ (files : List Path),
    (∀ p ∈ files, (∃ b, fs p = .ok ⟨b, none⟩) ∧
      ∃ rel, p = root ++ plat.separator :: rel ∧ ext plat p = lit ".js") →
    ∃ rs, appReaders fs root files = .ok rs ∧
      ioCopyMulti rs =
        (files.flatMap (fun p => fragment ((moduleName root p).getD []) (contents fs p)), none) := by
  intro files
  induction files with
  | nil => intro _; exact ⟨[], rfl, rfl⟩
  | cons fn rest ih =>
    intro h
    obtain ⟨⟨b, hb⟩, rel, hrel, hext⟩ := h fn (List.mem_cons_self _ _)
    obtain ⟨rs, h1, h2⟩ := ih (fun p hp => h p (List.mem_cons_of_mem _ hp))
    rw [hrel] at hext
    obtain ⟨stem, hstem⟩ := ext_js_suffix plat root rel hext
    have hm : moduleName root fn = some (replaceBackslash stem) := by
      rw [hrel, hstem]; exact moduleName_stem root stem _
    refine ⟨moduleReaders (replaceBackslash stem) ⟨b, none⟩ ++ rs,
      by simp only [appReaders, hb, hm, h1], ?_⟩
    rw [ioCopyMulti_append _ _ (by rw [ioCopyMulti_moduleReaders])]
    simp [ioCopyMulti_moduleReaders, h2, hm, contents, hb]

theorem mem_collect (plat : Platform) (walk : List Path) (p : Path) (h : p ∈ collect plat walk) :
    p ∈ walk ∧ ext plat p = lit ".js" := by
  simpa [collect] using h

/-! ## The claims about `generateJS` -/

/-- Claim C1: When every collected vendor file and every collected app file opens and reads
without error (the app files lying under the app root, as a walk of that root yields
them), `generateJS` returns `nil` and has written exactly: each vendor file followed by a
newline, in walk order; then `jsheader`; then the module fragment of each app file, in walk
order.  So all vendor bytes precede the loader runtime and every register call, unwrapped. -/
theorem generateJS_output (plat : Platform) (fs : FS) (vendorWalk appWalk : List Path)
    (hV : ∀ p ∈ collect plat vendorWalk, ∃ b, fs p = .ok ⟨b, none⟩)
    (hA : ∀ p ∈ collect plat appWalk, (∃ b, fs p = .ok ⟨b, none⟩) ∧
      ∃ rel, p = appRoot plat ++ plat.separator :: rel) :
    generateJS plat fs vendorWalk appWalk =
      .returned
        ((collect plat vendorWalk).flatMap (fun p => contents fs p ++ lit "\n") ++ jsheader ++
          (collect plat appWalk).flatMap
            (fun p => fragment ((moduleName (appRoot plat) p).getD []) (contents fs p)))
        none := by
  obtain ⟨vs, hv1, hv2⟩ := vendorReaders_ok fs _ hV
  obtain ⟨as, ha1, ha2⟩ := appReaders_ok fs plat (appRoot plat) (collect plat appWalk)
    (fun p hp => ⟨(hA p hp).1, (hA p hp).2.imp (fun rel hrel => ⟨hrel, (mem_collect _ _ _ hp).2⟩)⟩)
  simp only [generateJS, hv1, ha1]
  rw [ioCopyMulti_append _ _ (by rw [hv2])]
  simp [ioCopyMulti, stringsNewReader, hv2, ha2]

theorem sample_collect_vendor :
    collect .unix [lit "vendor/scripts", lit "vendor/scripts/jquery.js"]
      = [lit "vendor/scripts/jquery.js"] := by decide

theorem sample_collect_app :
    collect .unix [lit "app/scripts", lit "app/scripts/main.js"]
      = [lit "app/scripts/main.js"] := by decide

/-- Witness for claim C1: a tree with the vendor file `jquery.js` and the app file
`main.js`. -/
theorem generateJS_output_witness :
    generateJS .unix sampleFS [lit "vendor/scripts", lit "vendor/scripts/jquery.js"]
        [lit "app/scripts", lit "app/scripts/main.js"] =
      .returned
        ((collect .unix [lit "vendor/scripts", lit "vendor/scripts/jquery.js"]).flatMap
            (fun p => contents sampleFS p ++ lit "\n") ++ jsheader ++
          (collect .unix [lit "app/scripts", lit "app/scripts/main.js"]).flatMap
            (fun p => fragment ((moduleName (appRoot .unix) p).getD []) (contents sampleFS p)))
        none :=
  generateJS_output .unix sampleFS _ _
    (by
      rw [sample_collect_vendor]
      intro p hp
      rw [List.mem_singleton.mp hp]
      exact ⟨lit "var $;", rfl⟩)
    (by
      rw [sample_collect_app]
      intro p hp
      rw [List.mem_singleton.mp hp]
      exact ⟨⟨lit "x=1", rfl⟩, lit "main.js", by decide⟩)

/-- Claim C2: For a module identifier `m` and a file whose read delivers the bytes `b` (and
then ends, with or without an error), the three readers `generateJS` appends for the module copy out exactly the register call that
wraps the standard padded base64 encoding of the single byte sequence `b`, source URL line,
`m` and `.js`: the stream encoder fed in two writes produces one continuous encoding. -/
theorem moduleReaders_output (m b : List Byte) (e : Option Err) :
    ioCopyMulti (moduleReaders m ⟨b, e⟩) =
      (lit "require.register(\"" ++ m ++
        lit "\", function(exports, require, module) \x7b\neval(decodeURIComponent(escape(atob(\"" ++
        encodeToString (b ++ lit "\n//# sourceURL=" ++ m ++ lit ".js") ++
        lit "\"))));\n\x7d);\n", none) := by
  rw [ioCopyMulti_moduleReaders]
  rfl

/-- Claim C3, the code at the failing input: The app file `app/scripts/m.js` opens but its read fails
with error 5: `generateJS` nevertheless returns `nil`, after writing the runtime and a
complete fragment for module `m` whose payload encodes the source URL line alone. -/
theorem generateJS_app_read_error_dropped :
    generateJS .unix unreadableModuleFS [] [lit "app/scripts/m.js"] =
      .returned (jsheader ++ fragment (lit "m") []) none := by
  have hc : collect .unix [lit "app/scripts/m.js"] = [lit "app/scripts/m.js"] := by decide
  have hf : unreadableModuleFS (lit "app/scripts/m.js") = .ok ⟨[], some 5⟩ := rfl
  have hm : moduleName (appRoot .unix) (lit "app/scripts/m.js") = some (lit "m") := by decide
  have hv : collect .unix ([] : List Path) = [] := rfl
  have hr : ioCopyMulti ([stringsNewReader jsheader] ++ moduleReaders (lit "m") ⟨[], some 5⟩)
      = (jsheader ++ fragment (lit "m") [], none) := by
    rw [ioCopyMulti_append [stringsNewReader jsheader] _ rfl, ioCopyMulti_moduleReaders]
    simp [ioCopyMulti, stringsNewReader]
  simp only [generateJS, hc, hv, vendorReaders, appReaders, hf, hm, List.nil_append,
    List.append_nil]
  rw [show stringsNewReader jsheader :: moduleReaders (lit "m") ⟨[], some 5⟩
    = [stringsNewReader jsheader] ++ moduleReaders (lit "m") ⟨[], some 5⟩ from rfl, hr]

/-- The sibling path of claim C3: a read failure of a vendor file, which reaches `io.Copy`
through the multi-reader, is returned by `generateJS`. -/
theorem generateJS_vendor_read_error_returned :
    generateJS .unix unreadableVendorFS [lit "vendor/scripts/j.js"] [] =
      .returned [] (some 5) := by
  have hc : collect .unix [lit "vendor/scripts/j.js"] = [lit "vendor/scripts/j.js"] := by decide
  have hf : unreadableVendorFS (lit "vendor/scripts/j.js") = .ok ⟨[], some 5⟩ := rfl
  have hv : collect .unix ([] : List Path) = [] := rfl
  simp only [generateJS, hc, hv, vendorReaders, appReaders, hf]
  rfl

/-- The sibling path of claim C3: a failure to open an app file is returned by
`generateJS` before anything is written. -/
theorem generateJS_open_error_returned :
    generateJS .unix unreadableVendorFS [] [lit "app/scripts/m.js"] = .returned [] (some 2) := by
  have hc : collect .unix [lit "app/scripts/m.js"] = [lit "app/scripts/m.js"] := by decide
  have hf : unreadableVendorFS (lit "app/scripts/m.js") = .error 2 := rfl
  have hv : collect .unix ([] : List Path) = [] := rfl
  simp only [generateJS, hc, hv, vendorReaders, appReaders, hf]

/-- Claim C4, counterexample: For the module `m` with the three source bytes `x=1`, decoding
the emitted payload does not give back those three bytes. -/
theorem decoded_payload_differs :
    decodeString (pipeReader (lit "m") ⟨lit "x=1", none⟩).data ≠ some (lit "x=1") := by
  decide

/-- Claim C4, amended: Decoding the payload emitted for module `m` with source bytes `b`
gives `b` followed by the source URL line of `m`; the original bytes are exactly the first
`b.length` bytes of the decoded payload. -/
theorem payload_decode (m b : List Byte) :
    decodeString (pipeReader m ⟨b, none⟩).data = some (b ++ lit "\n//# sourceURL=" ++ m ++ lit ".js") ∧
      (b ++ lit "\n//# sourceURL=" ++ m ++ lit ".js").take b.length = b := by
  constructor
  · show decodeString (pipeOutput m ⟨b, none⟩) = _
    rw [pipeOutput_eq, decodeString_encodeToString]
    simp [sourceURL]
  · simp [List.append_assoc]

/-- Claim C9, counterexample: On a platform whose separator is the slash, the app file
`a\b.js` (a backslash in its name) is collected and gets the identifier `a/b`, although the
relative path holds no separator to replace. -/
theorem moduleName_unix_backslash :
    ext .unix (appRoot .unix ++ Platform.unix.separator :: lit "a\\b.js") = lit ".js" ∧
      moduleName (appRoot .unix) (appRoot .unix ++ Platform.unix.separator :: lit "a\\b.js")
        = some (lit "a/b") ∧
      lit "a/b" ++ lit ".js" ≠ normalise .unix (lit "a\\b.js") := by
  decide

/-- Claim C9, amended: For a collected app file `root + separator + rel` the two slice
expressions are in bounds and the identifier `m` satisfies: `m + ".js"` is `rel` with every
backslash replaced by a slash; `m` holds no backslash, so no path separator other than the
slash; and `m + ".js"` is `rel` with the platform separators normalised on Windows and
whenever `rel` holds no backslash. -/
theorem moduleName_collected (plat : Platform) (root rel : List Byte)
    (h : ext plat (root ++ plat.separator :: rel) = lit ".js") :
    ∃ m, moduleName root (root ++ plat.separator :: rel) = some m ∧
      m ++ lit ".js" = replaceBackslash rel ∧
      (92 : Byte) ∉ m ∧
      (∀ c ∈ m, plat.isPathSeparator c = true → c = 47) ∧
      (plat = .windows ∨ (92 : Byte) ∉ rel → m ++ lit ".js" = normalise plat rel) := by
  obtain ⟨stem, hstem⟩ := ext_js_suffix plat root rel h
  refine ⟨replaceBackslash stem, ?_, ?_, replaceBackslash_no_backslash stem, ?_, ?_⟩
  · rw [hstem]; exact moduleName_stem root stem _
  · rw [hstem, replaceBackslash_js]
  · intro c hc hsep
    have hne : c ≠ 92 := fun h92 => replaceBackslash_no_backslash stem (h92 ▸ hc)
    cases plat with
    | unix => simpa [Platform.isPathSeparator] using hsep
    | windows =>
      simp only [Platform.isPathSeparator, Bool.or_eq_true, beq_iff_eq] at hsep
      rcases hsep with h1 | h1
      · exact absurd h1 hne
      · exact h1
  · intro hcase
    rw [← replaceBackslash_js, ← hstem]
    rcases hcase with hw | hno
    · subst hw; rfl
    · simp only [replaceBackslash, normalise]
      apply List.map_congr_left
      intro c hc
      have hne : c ≠ 92 := fun h92 => hno (h92 ▸ hc)
      cases plat with
      | unix =>
        simp only [Platform.separator, hne, if_false]
        by_cases h47 : c = 47 <;> simp [h47]
      | windows => simp [Platform.separator, hne]

/-- Witness for claim C9: the file `lib\util.js` under the app root of a Windows build. -/
theorem moduleName_collected_witness :
    ext .windows (appRoot .windows ++ Platform.windows.separator :: lit "lib\\util.js") = lit ".js" ∧
      ∃ m, moduleName (appRoot .windows)
          (appRoot .windows ++ Platform.windows.separator :: lit "lib\\util.js") = some m ∧
        m ++ lit ".js" = replaceBackslash (lit "lib\\util.js") ∧
        (92 : Byte) ∉ m ∧
        (∀ c ∈ m, Platform.windows.isPathSeparator c = true → c = 47) ∧
        (Platform.windows = .windows ∨ (92 : Byte) ∉ lit "lib\\util.js" →
          m ++ lit ".js" = normalise .windows (lit "lib\\util.js")) :=
  ⟨by decide, moduleName_collected .windows (appRoot .windows) (lit "lib\\util.js") (by decide)⟩

/-- Claim C10: Whatever bytes the module file holds (and whether or not its read ends in an
error), every byte of the payload placed inside the string literal passed to `atob` is a
character of the standard base64 alphabet or the padding sign; in particular none is a
double quote, a backslash, a line feed or a carriage return. -/
theorem payload_base64 (m : List Byte) (fh : Reader) :
    ∀ c ∈ (pipeReader m fh).data,
      isBase64Char c = true ∧ c ≠ 34 ∧ c ≠ 92 ∧ c ≠ 10 ∧ c ≠ 13 := by
  intro c hc
  have h : isBase64Char c = true := by
    have hc2 : c ∈ pipeOutput m fh := hc
    rw [pipeOutput_eq] at hc2
    exact encodeToString_base64 _ c hc2
  refine ⟨h, ?_, ?_, ?_, ?_⟩ <;> intro hx <;> subst hx <;> exact absurd h (by decide)

/-- Witness for claim C10: the first payload byte of a module whose source holds a double
quote, a backslash and a line feed. -/
theorem payload_base64_witness :
    (73 : Byte) ∈ (pipeReader (lit "m") ⟨lit "\"\\\n", none⟩).data ∧
      (isBase64Char 73 = true ∧ (73 : Byte) ≠ 34 ∧ (73 : Byte) ≠ 92 ∧ (73 : Byte) ≠ 10 ∧
        (73 : Byte) ≠ 13) :=
  ⟨by decide, payload_base64 (lit "m") ⟨lit "\"\\\n", none⟩ 73 (by decide)⟩

end Bundler

namespace Loader

/-! ## `split` and `join` -/

theorem split_ne_nil (s : Str) : split s ≠ [] := by
  cases s with
  | nil => simp [split]
  | cons c cs =>
    rw [split]
    split
    · simp
    · split <;> simp

theorem split_slash (cs : Str) : split ('/' :: cs) = [] :: split cs := by
  rw [split]; simp

theorem split_cons_of_ne (c : Char) (cs : Str) (h : c ≠ '/') :
    ∃ s ss, split cs = s :: ss ∧ split (c :: cs) = (c :: s) :: ss := by
  cases hs : split cs with
  | nil => exact absurd hs (split_ne_nil cs)
  | cons s ss =>
    refine ⟨s, ss, rfl, ?_⟩
    rw [split, if_neg h, hs]

theorem join_cons_cons (c : Char) (s : Str) (ss : List Str) :
    join ((c :: s) :: ss) = c :: join (s :: ss) := by
  cases ss <;> simp [join]

theorem join_nil_cons (ss : List Str) (h : ss ≠ []) : join ([] :: ss) = '/' :: join ss := by
  cases ss with
  | nil => exact absurd rfl h
  | cons t ts => simp [join]

theorem join_split (s : Str) : join (split s) = s := by
  induction s with
  | nil => simp [split, join]
  | cons c cs ih =>
    by_cases h : c = '/'
    · subst h
      rw [split_slash, join_nil_cons _ (split_ne_nil cs), ih]
    · obtain ⟨s, ss, h1, h2⟩ := split_cons_of_ne c cs h
      rw [h2, join_cons_cons, ← h1, ih]

theorem split_append_slash (a b : Str) : split (a ++ '/' :: b) = split a ++ split b := by
  induction a with
  | nil => simp [split_slash, split]
  | cons c cs ih =>
    by_cases h : c = '/'
    · subst h
      simp [split_slash, ih]
    · obtain ⟨s, ss, h1, h2⟩ := split_cons_of_ne c cs h
      obtain ⟨s2, ss2, h3, h4⟩ := split_cons_of_ne c (cs ++ '/' :: b) h
      rw [List.cons_append, h4, h2]
      rw [ih, h1] at h3
      simp only [List.cons_append, List.cons.injEq] at h3
      simp [h3.1, h3.2]

theorem split_of_no_slash (s : Str) (h : '/' ∉ s) : split s = [s] := by
  induction s with
  | nil => simp [split]
  | cons c cs ih =>
    have hc : c ≠ '/' := fun e => h (by simp [e])
    have hcs : '/' ∉ cs := fun e => h (List.mem_cons_of_mem _ e)
    rw [split, if_neg hc, ih hcs]

theorem mem_split_no_slash (s : Str) : ∀ seg ∈ split s, '/' ∉ seg := by
  induction s with
  | nil => simp [split]
  | cons c cs ih =>
    by_cases h : c = '/'
    · subst h
      rw [split_slash]
      intro seg hseg
      rcases List.mem_cons.mp hseg with e | e
      · simp [e]
      · exact ih seg e
    · obtain ⟨s, ss, h1, h2⟩ := split_cons_of_ne c cs h
      rw [h2]
      rw [h1] at ih
      intro seg hseg
      rcases List.mem_cons.mp hseg with e | e
      · rw [e]
        intro hm
        rcases List.mem_cons.mp hm with e2 | e2
        · exact h e2.symm
        · exact ih s (List.mem_cons_self _ _) e2
      · exact ih seg (List.mem_cons_of_mem _ e)

theorem join_append (xs ys : List Str) (hx : xs ≠ []) (hy : ys ≠ []) :
    join (xs ++ ys) = join xs ++ '/' :: join ys := by
  induction xs with
  | nil => exact absurd rfl hx
  | cons x rest ih =>
    cases rest with
    | nil =>
      cases ys with
      | nil => exact absurd rfl hy
      | cons y ys => simp [join]
    | cons r rs =>
      have := ih (by simp)
      simp only [List.cons_append] at this ⊢
      simp [join, this]

theorem split_join (segs : List Str) (hne : segs ≠ []) (h : ∀ s ∈ segs, '/' ∉ s) :
    split (join segs) = segs := by
  induction segs with
  | nil => exact absurd rfl hne
  | cons x rest ih =>
    cases rest with
    | nil => simpa [join] using split_of_no_slash x (h x (List.mem_cons_self _ _))
    | cons r rs =>
      have h1 := ih (by simp) (fun s hs => h s (List.mem_cons_of_mem _ hs))
      simp only [join]
      rw [split_append_slash, h1, split_of_no_slash x (h x (List.mem_cons_self _ _))]
      rfl

theorem split_length_two (p : Str) (h : '/' ∈ p) : 2 ≤ (split p).length := by
  obtain ⟨a, b, hab⟩ := List.append_of_mem h
  rw [hab, split_append_slash, List.length_append]
  have h1 : 0 < (split a).length := List.length_pos.mpr (split_ne_nil a)
  have h2 : 0 < (split b).length := List.length_pos.mpr (split_ne_nil b)
  omega

/-! ## The loop of `expand` -/

theorem expandStep_ordinary (results : List Str) (part : Str) (h : ordinary part) :
    expandStep results part = results ++ [part] := by
  obtain ⟨h1, h2, h3⟩ := h
  simp [expandStep, h1, h2, h3]

theorem foldl_expandStep_ordinary (parts : List Str) : ∀ (results : List Str),
    (∀ s ∈ parts, ordinary s) → parts.foldl expandStep results = results ++ parts := by
  induction parts with
  | nil => intro results _; simp
  | cons p ps ih =>
    intro results h
    rw [List.foldl_cons, expandStep_ordinary _ _ (h p (List.mem_cons_self _ _)),
      ih _ (fun s hs => h s (List.mem_cons_of_mem _ hs))]
    simp

theorem expandStep_inv (P : Str → Prop) (results : List Str) (part : Str)
    (hr : ∀ s ∈ results, P s) (hp : ordinary part → P part) :
    ∀ s ∈ expandStep results part, P s := by
  unfold expandStep
  split
  · intro s hs
    exact hr s (List.mem_of_mem_dropLast hs)
  · split
    · rename_i h2 h3
      intro s hs
      rcases List.mem_append.mp hs with e | e
      · exact hr s e
      · rw [List.mem_singleton.mp e]
        exact hp ⟨h3.2, h3.1, h2⟩
    · exact hr

theorem foldl_expandStep_inv (P : Str → Prop) (parts : List Str) : ∀ (results : List Str),
    (∀ s ∈ results, P s) → (∀ s ∈ parts, ordinary s → P s) →
    ∀ s ∈ parts.foldl expandStep results, P s := by
  induction parts with
  | nil => intro results hr _; simpa using hr
  | cons p ps ih =>
    intro results hr hp
    rw [List.foldl_cons]
    exact ih _ (expandStep_inv P results p hr (hp p (List.mem_cons_self _ _)))
      (fun s hs => hp s (List.mem_cons_of_mem _ hs))

theorem expandStep_length (results : List Str) (part : Str) :
    (expandStep results part).length ≤ results.length + 1 := by
  unfold expandStep
  split
  · simp; omega
  · split <;> simp

theorem foldl_expandStep_length (parts : List Str) : ∀ (results : List Str),
    (parts.foldl expandStep results).length ≤ results.length + parts.length := by
  induction parts with
  | nil => intro results; simp
  | cons p ps ih =>
    intro results
    rw [List.foldl_cons]
    have h1 := ih (expandStep results p)
    have h2 := expandStep_length results p
    simp only [List.length_cons]
    omega

theorem foldl_expandStep_dots (k : Nat) : ∀ (results : List Str), results.length ≤ k →
    (List.replicate k ['.', '.']).foldl expandStep results = [] := by
  induction k with
  | zero =>
    intro results h
    simpa using h
  | succ k ih =>
    intro results h
    rw [List.replicate_succ, List.foldl_cons]
    apply ih
    simp [expandStep]
    omega

theorem split_up (k : Nat) (x : Str) :
    split (up k x) = List.replicate k ['.', '.'] ++ split x := by
  induction k with
  | zero => simp [up]
  | succ k ih =>
    have h : up (k + 1) x = ['.', '.'] ++ '/' :: up k x := rfl
    rw [h, split_append_slash, ih, List.replicate_succ]
    rfl

theorem isRelative_up (k : Nat) (x : Str) : isRelative (up (k + 1) x) = true := by
  simp [up, isRelative]

/-! ## The claims about name resolution -/

theorem expand_absolute (root n : Str) (h : isRelative n = false) :
    expand root n = join ((split n).foldl expandStep []) := by
  simp [expand, h]

theorem expand_relative (root n : Str) (h : isRelative n = true) :
    expand root n = join ((split root ++ split n).foldl expandStep []) := by
  simp [expand, h, join, split_append_slash]

/-- Claim C6, counterexample: The name `a/../b` does not match the relative pattern, yet
from module `main` it is looked up as `b`, not verbatim. -/
theorem absolute_name_not_verbatim :
    isRelative "a/../b".toList = false ∧
      expand (dirname "main".toList) "a/../b".toList = "b".toList ∧
      expand (dirname "main".toList) "a/../b".toList ≠ "a/../b".toList := by
  decide

/-- Claim C6, amended: For a requested name `n` that does not match the relative pattern, the
name `localRequire(p)` looks up does not depend on `p`: it is `n` split on the slash and
folded by the loop of `expand` (empty and one-dot segments dropped, two dots popping the
segment before them), and it is `n` itself, unchanged, when every segment of `n` is
ordinary. -/
theorem localRequire_absolute {α : Type} (req : Str → Eval α) (p n : Str)
    (h : isRelative n = false) :
    localRequire req p n = req (join ((split n).foldl expandStep [])) ∧
      ((∀ s ∈ split n, ordinary s) → localRequire req p n = req n) := by
  have h1 : localRequire req p n = req (join ((split n).foldl expandStep [])) := by
    simp [localRequire, expand_absolute _ _ h]
  refine ⟨h1, fun ho => ?_⟩
  rw [h1, foldl_expandStep_ordinary _ _ ho, List.nil_append, join_split]

/-- Witness for claim C6: the name `lib/util`, required from `app/main`. -/
theorem localRequire_absolute_witness :
    isRelative "lib/util".toList = false ∧
      (localRequire (require standardEngine 1) "app/main".toList "lib/util".toList =
          require standardEngine 1 (join ((split "lib/util".toList).foldl expandStep [])) ∧
        ((∀ s ∈ split "lib/util".toList, ordinary s) →
          localRequire (require standardEngine 1) "app/main".toList "lib/util".toList =
            require standardEngine 1 "lib/util".toList)) :=
  ⟨by decide, localRequire_absolute (require standardEngine 1) "app/main".toList "lib/util".toList (by decide)⟩

/-- Claim C7: For a requesting module `p` and a name `x`, both made of ordinary segments,
`expand(dirname(p), "./" + x)` is `dirname(p) + "/" + x` when `p` has a directory part (holds
a slash) and `x` alone when it has none. -/
theorem expand_dot_slash (p x : Str) (hp : ∀ s ∈ split p, ordinary s)
    (hx : ∀ s ∈ split x, ordinary s) :
    ('/' ∈ p → expand (dirname p) ('.' :: '/' :: x) = dirname p ++ '/' :: x) ∧
      ('/' ∉ p → expand (dirname p) ('.' :: '/' :: x) = x) := by
  have hrel : isRelative ('.' :: '/' :: x) = true := by simp [isRelative]
  have hname : split ('.' :: '/' :: x) = ['.'] :: split x := by
    have h : ('.' :: '/' :: x) = ['.'] ++ '/' :: x := rfl
    rw [h, split_append_slash]; rfl
  have hdot : ∀ r : List Str, expandStep r ['.'] = r := by
    intro r; simp [expandStep]
  constructor
  · intro hs
    have hD : (split p).dropLast ≠ [] := by
      have h2 := split_length_two p hs
      intro e
      have h3 := congrArg List.length e
      simp only [List.length_dropLast, List.length_nil] at h3
      omega
    have hDo : ∀ s ∈ (split p).dropLast, ordinary s :=
      fun s hs => hp s (List.mem_of_mem_dropLast hs)
    have hDs : ∀ s ∈ (split p).dropLast, '/' ∉ s :=
      fun s hs => mem_split_no_slash p s (List.mem_of_mem_dropLast hs)
    rw [expand_relative _ _ hrel, hname]
    simp only [dirname]
    rw [split_join _ hD hDs, List.foldl_append, foldl_expandStep_ordinary _ _ hDo,
      List.foldl_cons, hdot, foldl_expandStep_ordinary _ _ hx, List.nil_append,
      join_append _ _ hD (split_ne_nil x), join_split]
  · intro hs
    have hd : dirname p = [] := by
      simp [dirname, split_of_no_slash p hs, join]
    have he : expandStep [] ([] : Str) = [] := by simp [expandStep]
    rw [expand_relative _ _ hrel, hname, hd]
    simp only [split, List.cons_append, List.nil_append, List.foldl_cons]
    rw [he, hdot, foldl_expandStep_ordinary _ _ hx, List.nil_append, join_split]

/-- Witness for claim C7: the scenario of the specification (`./util` required from `main`)
and a module with a directory part. -/
theorem expand_dot_slash_witness :
    (∀ s ∈ split "main".toList, ordinary s) ∧ (∀ s ∈ split "app/main".toList, ordinary s) ∧
      (∀ s ∈ split "util".toList, ordinary s) ∧
      expand (dirname "main".toList) "./util".toList = "util".toList ∧
      expand (dirname "app/main".toList) "./util".toList = "app/util".toList :=
  ⟨by decide, by decide, by decide,
   (expand_dot_slash "main".toList "util".toList (by decide) (by decide)).2 (by decide),
   (expand_dot_slash "app/main".toList "util".toList (by decide) (by decide)).1 (by decide)⟩

/-- Claim C8, counterexample: From a module without a directory part the name `..` resolves
to the empty string, which split on the slash is one empty segment. -/
theorem expand_empty_result :
    expand (dirname "main".toList) "..".toList = [] ∧
      split (expand (dirname "main".toList) "..".toList) = [[]] ∧
      ¬ (∀ s ∈ split (expand (dirname "main".toList) "..".toList), s ≠ []) := by
  decide

/-- Claim C8, amended: For every root and name, `expand` returns (it is a total function)
either the empty string or a name whose segments, split on the slash, are all ordinary:
none empty, none a single dot, none two dots.  Two dots met with nothing accumulated do
nothing: a name of `k` leading two-dot segments followed by a name `x` of ordinary segments
resolves to `x` when `root` has at most `k` segments. -/
theorem expand_wellFormed :
    (∀ root name : Str, expand root name = [] ∨ ∀ s ∈ split (expand root name), ordinary s) ∧
      (∀ (root x : Str) (k : Nat), (split root).length ≤ k → (∀ s ∈ split x, ordinary s) →
        expand root (up k x) = x) := by
  constructor
  · intro root name
    have key : ∀ parts : List Str, (∀ s ∈ parts, '/' ∉ s) →
        join (parts.foldl expandStep []) = [] ∨
          ∀ s ∈ split (join (parts.foldl expandStep [])), ordinary s := by
      intro parts hparts
      have hinv := foldl_expandStep_inv (fun s => ordinary s ∧ '/' ∉ s) parts []
        (by simp) (fun s hs ho => ⟨ho, hparts s hs⟩)
      by_cases hemp : parts.foldl expandStep [] = []
      · left; rw [hemp]; rfl
      · right
        rw [split_join _ hemp (fun s hs => (hinv s hs).2)]
        exact fun s hs => (hinv s hs).1
    cases hrel : isRelative name with
    | true =>
      rw [expand_relative _ _ hrel]
      apply key
      intro s hs
      rcases List.mem_append.mp hs with e | e
      · exact mem_split_no_slash root s e
      · exact mem_split_no_slash name s e
    | false =>
      rw [expand_absolute _ _ hrel]
      exact key _ (mem_split_no_slash name)
  · intro root x k hk hx
    cases k with
    | zero =>
      have := List.length_pos.mpr (split_ne_nil root)
      omega
    | succ k =>
      rw [expand_relative _ _ (isRelative_up k x), split_up, List.foldl_append,
        List.foldl_append, foldl_expandStep_dots, foldl_expandStep_ordinary _ _ hx,
        List.nil_append, join_split]
      have := foldl_expandStep_length (split root) []
      simp only [List.length_nil, Nat.zero_add] at this
      omega

/-- Witness for claim C8: the name `../../../x/y` resolved against `a/b`. -/
theorem expand_wellFormed_witness :
    (split "a/b".toList).length ≤ 3 ∧ (∀ s ∈ split "x/y".toList, ordinary s) ∧
      expand "a/b".toList (up 3 "x/y".toList) = "x/y".toList :=
  ⟨by decide, by decide,
   expand_wellFormed.2 "a/b".toList "x/y".toList 3 (by decide) (by decide)⟩

/-! ## The runtime: what every evaluation maintains -/

theorem invocations_append (n : Str) (t : List Event) (e : Event) :
    invocations n (t ++ [e]) = invocations n t + (if isInvoke n e = true then 1 else 0) := by
  simp [invocations, List.countP_append, List.countP_cons]

theorem lookup_cons (name n : Str) (m : Module) (cache : List (Str × Module)) :
    lookup n ((name, m) :: cache) = if name = n then some m else lookup n cache := rfl

theorem cacheGet_absent (engine : Engine) (cache : List (Str × Module)) (name : Str)
    (h : cacheGet engine cache name = .absent) :
    lookup name cache = none ∧ name ≠ protoName ∧ engine.objectMember name = false := by
  unfold cacheGet at h
  cases hl : lookup name cache with
  | some m => rw [hl] at h; cases h
  | none =>
    rw [hl] at h
    simp only at h
    by_cases hc : name = protoName ∨ engine.objectMember name = true
    · rw [if_pos hc] at h; cases h
    · refine ⟨rfl, fun e => hc (Or.inl e), ?_⟩
      cases ho : engine.objectMember name with
      | true => exact absurd (Or.inr ho) hc
      | false => rfl

theorem cacheValue_cons_ne (engine : Engine) (cache : List (Str × Module)) (name n : Str)
    (m : Module) (h : name ≠ n) :
    cacheValue engine ((name, m) :: cache) n = cacheValue engine cache n := by
  simp [cacheValue, cacheGet, lookup_cons, h]

theorem cacheValue_cons_self (engine : Engine) (cache : List (Str × Module)) (name : Str)
    (m : Module) : cacheValue engine ((name, m) :: cache) name = some (.exportsOf m) := by
  simp [cacheValue, cacheGet, lookup_cons]

theorem cacheValue_of_lookup_none (engine : Engine) (cache : List (Str × Module)) (name : Str)
    (h1 : lookup name cache = none) (h2 : name ≠ protoName)
    (h3 : engine.objectMember name = false) : cacheValue engine cache name = none := by
  simp [cacheValue, cacheGet, h1, h2, h3]

theorem GoodAt.returned (engine : Engine) (cache : List (Str × Module)) (running : List Str)
    (trace : List Event) (name : Str) (v : Value) (h : GoodAt engine cache running trace)
    (hv : cacheValue engine cache name = some v) :
    GoodAt engine cache running (trace ++ [.returned name v]) := by
  obtain ⟨g1, g2, g3⟩ := h
  refine ⟨?_, ?_, ?_⟩
  · intro n hn
    rcases g1 n hn with h | h
    · exact Or.inl (List.mem_append_left _ h)
    · exact Or.inr h
  · intro n
    rcases g2 n with h | h | h
    · exact Or.inl (List.mem_append_left _ h)
    · exact Or.inr (Or.inl (List.mem_append_left _ h))
    · refine Or.inr (Or.inr ?_)
      rw [invocations_append]
      simpa [isInvoke] using h
  · intro n w hw
    rcases List.mem_append.mp hw with h | h
    · rcases g3 n w h with h2 | h2
      · exact Or.inl (List.mem_append_left _ h2)
      · exact Or.inr h2
    · simp only [List.mem_singleton, Event.returned.injEq] at h
      rw [h.1, h.2]
      exact Or.inr hv

theorem GoodAt.invoke (engine : Engine) (cache : List (Str × Module)) (running : List Str)
    (trace : List Event) (name : Str) (h : GoodAt engine cache running trace)
    (hc : lookup name cache = none) :
    GoodAt engine cache (name :: running)
      (trace ++ [.invoke name (decide (name ∈ running))]) := by
  obtain ⟨g1, g2, g3⟩ := h
  refine ⟨?_, ?_, ?_⟩
  · intro n hn
    rcases List.mem_cons.mp hn with e | hn
    · rw [e]; exact Or.inr hc
    · rcases g1 n hn with h | h
      · exact Or.inl (List.mem_append_left _ h)
      · exact Or.inr h
  · intro n
    by_cases hn : n = name
    · subst hn
      by_cases hr : n ∈ running
      · left
        apply List.mem_append_right
        simp [hr]
      · rcases g2 n with h | h | h
        · exact Or.inl (List.mem_append_left _ h)
        · exact Or.inr (Or.inl (List.mem_append_left _ h))
        · refine Or.inr (Or.inr ?_)
          have h0 : invocations n trace = 0 := by
            have h1 := h.1
            have h2 := h.2
            by_contra hne
            have h3 : invocations n trace = 1 := by omega
            rcases h2 h3 with h4 | h4
            · exact hr h4
            · exact h4 hc
          rw [invocations_append]
          simp [isInvoke, h0]
    · rcases g2 n with h | h | h
      · exact Or.inl (List.mem_append_left _ h)
      · exact Or.inr (Or.inl (List.mem_append_left _ h))
      · refine Or.inr (Or.inr ?_)
        rw [invocations_append]
        have hne : ¬ name = n := fun e => hn e.symm
        simp only [isInvoke, hne, decide_False, Bool.false_eq_true, if_false, Nat.add_zero]
        exact ⟨h.1, fun h1 => (h.2 h1).imp (fun h2 => List.mem_cons_of_mem _ h2) id⟩
  · intro n w hw
    rcases List.mem_append.mp hw with h | h
    · rcases g3 n w h with h2 | h2
      · exact Or.inl (List.mem_append_left _ h2)
      · exact Or.inr h2
    · simp at h

theorem GoodAt.abort (engine : Engine) (cache : List (Str × Module)) (running : List Str)
    (trace : List Event) (name : Str) (h : GoodAt engine cache (name :: running) trace) :
    GoodAt engine cache running (trace ++ [.abort name]) := by
  obtain ⟨g1, g2, g3⟩ := h
  refine ⟨?_, ?_, ?_⟩
  · intro n hn
    rcases g1 n (List.mem_cons_of_mem _ hn) with h | h
    · exact Or.inl (List.mem_append_left _ h)
    · exact Or.inr h
  · intro n
    by_cases hn : n = name
    · subst hn
      exact Or.inr (Or.inl (List.mem_append_right _ (by simp)))
    · rcases g2 n with h | h | h
      · exact Or.inl (List.mem_append_left _ h)
      · exact Or.inr (Or.inl (List.mem_append_left _ h))
      · refine Or.inr (Or.inr ?_)
        rw [invocations_append]
        simp only [isInvoke, Bool.false_eq_true, if_false, Nat.add_zero]
        refine ⟨h.1, fun h1 => (h.2 h1).imp (fun h2 => ?_) id⟩
        rcases List.mem_cons.mp h2 with e | e
        · exact absurd e hn
        · exact e
  · intro n w hw
    rcases List.mem_append.mp hw with h | h
    · rcases g3 n w h with h2 | h2
      · exact Or.inl (List.mem_append_left _ h2)
      · exact Or.inr h2
    · simp at h

theorem GoodAt.finish (engine : Engine) (cache : List (Str × Module)) (running : List Str)
    (trace : List Event) (name : Str) (m : Module)
    (h : GoodAt engine cache (name :: running) trace)
    (hp : name ≠ protoName) (ho : engine.objectMember name = false)
    (hnested : name ∈ running → Event.invoke name true ∈ trace) :
    GoodAt engine ((name, m) :: cache) running
      (trace ++ [.finish name] ++ [.returned name (.exportsOf m)]) := by
  obtain ⟨g1, g2, g3⟩ := h
  have hmem : ∀ e, e ∈ trace → e ∈ trace ++ [Event.finish name] ++
      [Event.returned name (.exportsOf m)] :=
    fun e he => List.mem_append_left _ (List.mem_append_left _ he)
  have hinv : ∀ n, invocations n (trace ++ [Event.finish name] ++
      [Event.returned name (.exportsOf m)]) = invocations n trace := by
    intro n
    rw [invocations_append, invocations_append]
    simp [isInvoke]
  refine ⟨?_, ?_, ?_⟩
  · intro n hn
    by_cases hnn : n = name
    · subst hnn
      exact Or.inl (hmem _ (hnested hn))
    · rcases g1 n (List.mem_cons_of_mem _ hn) with h | h
      · exact Or.inl (hmem _ h)
      · right
        rw [lookup_cons, if_neg (fun e => hnn e.symm)]
        exact h
  · intro n
    rcases g2 n with h | h | h
    · exact Or.inl (hmem _ h)
    · exact Or.inr (Or.inl (hmem _ h))
    · refine Or.inr (Or.inr ?_)
      rw [hinv]
      refine ⟨h.1, fun h1 => ?_⟩
      by_cases hnn : n = name
      · subst hnn
        right
        rw [lookup_cons, if_pos rfl]
        simp
      · rcases h.2 h1 with h2 | h2
        · rcases List.mem_cons.mp h2 with e | e
          · exact absurd e hnn
          · exact Or.inl e
        · right
          rw [lookup_cons, if_neg (fun e => hnn e.symm)]
          exact h2
  · intro n w hw
    rcases List.mem_append.mp hw with hw1 | hw1
    · rcases List.mem_append.mp hw1 with hw2 | hw2
      · by_cases hnn : n = name
        · rw [hnn] at hw2 ⊢
          rcases g3 name w hw2 with h2 | h2
          · exact Or.inl (hmem _ h2)
          · left
            apply hmem
            rcases g1 name (List.mem_cons_self _ _) with h3 | h3
            · exact h3
            · rw [cacheValue_of_lookup_none engine cache name h3 hp ho] at h2
              cases h2
        · rcases g3 n w hw2 with h2 | h2
          · exact Or.inl (hmem _ h2)
          · right
            rw [cacheValue_cons_ne engine cache name n m (fun e => hnn e.symm)]
            exact h2
      · simp at hw2
    · simp only [List.mem_singleton, Event.returned.injEq] at hw1
      rw [hw1.1, hw1.2]
      exact Or.inr (cacheValue_cons_self engine cache name m)

theorem runProg_preserves (engine : Engine) (req : Str → Eval Value)
    (hreq : ∀ name, Preserves engine (req name)) :
    ∀ prog : Prog, Preserves engine (runProg req prog) := by
  intro prog
  induction prog with
  | done => intro st h; exact ⟨h, rfl, fun e he => he⟩
  | throw f => intro st h; exact ⟨h, rfl, fun e he => he⟩
  | call c next ih =>
    intro st h
    cases c with
    | viaLocal path name =>
      obtain ⟨h1, h2, h3⟩ := hreq (expand (dirname path) name) st h
      obtain ⟨k1, k2, k3⟩ := ih _ _ h1
      exact ⟨k1, k2.trans h2, fun e he => k3 e (h3 e he)⟩
    | viaWindow name =>
      obtain ⟨h1, h2, h3⟩ := hreq name st h
      obtain ⟨k1, k2, k3⟩ := ih _ _ h1
      exact ⟨k1, k2.trans h2, fun e he => k3 e (h3 e he)⟩
  | register name definition next _ ih =>
    intro st h
    exact ih ⟨register st.registered name definition, st.cache, st.fresh, st.user, st.running,
      st.trace⟩ h
  | read next ih =>
    intro st h
    exact ih st.user st h
  | write user next ih =>
    intro st h
    exact ih ⟨st.registered, st.cache, st.fresh, user, st.running, st.trace⟩ h

theorem require_preserves (engine : Engine) :
    ∀ (depth : Nat) (name : Str), Preserves engine (require engine depth name) := by
  intro depth
  induction depth with
  | zero => intro name st h; exact ⟨h, rfl, fun e he => he⟩
  | succ d ih =>
    intro name st h
    cases hg : cacheGet engine st.cache name with
    | own m =>
      have hreq : require engine (d + 1) name st =
          (.ok (.exportsOf m), ⟨st.registered, st.cache, st.fresh, st.user, st.running,
            st.trace ++ [.returned name (.exportsOf m)]⟩) := by
        simp only [require, hg]
      rw [hreq]
      exact ⟨GoodAt.returned engine _ _ _ name _ h (by simp [cacheValue, hg]), rfl,
        fun e he => List.mem_append_left _ he⟩
    | inherited =>
      have hreq : require engine (d + 1) name st =
          (.ok .undefined, ⟨st.registered, st.cache, st.fresh, st.user, st.running,
            st.trace ++ [.returned name .undefined]⟩) := by
        simp only [require, hg]
      rw [hreq]
      exact ⟨GoodAt.returned engine _ _ _ name _ h (by simp [cacheValue, hg]), rfl,
        fun e he => List.mem_append_left _ he⟩
    | absent =>
      obtain ⟨hl, hp, ho⟩ := cacheGet_absent engine st.cache name hg
      simp only [require, hg, module]
      cases hr : registeredGet engine st.registered name with
      | absent => exact ⟨h, rfl, fun e he => he⟩
      | other => exact ⟨h, rfl, fun e he => he⟩
      | factory definition =>
        simp only
        have h1 := GoodAt.invoke engine st.cache st.running st.trace name h hl
        obtain ⟨k1, k2, k3⟩ := runProg_preserves engine (require engine d) (ih)
          (definition st.fresh name ⟨name, st.fresh⟩)
          ⟨st.registered, st.cache, st.fresh + 1, st.user, name :: st.running,
            st.trace ++ [.invoke name (decide (name ∈ st.running))]⟩ h1
        cases hq : runProg (require engine d) (definition st.fresh name ⟨name, st.fresh⟩)
            ⟨st.registered, st.cache, st.fresh + 1, st.user, name :: st.running,
              st.trace ++ [.invoke name (decide (name ∈ st.running))]⟩ with
        | mk r st2 =>
          rw [hq] at k1 k2 k3
          simp only at k1 k2 k3
          cases r with
          | error f =>
            simp only
            rw [k2] at k1 ⊢
            exact ⟨GoodAt.abort engine _ _ _ name k1, rfl,
              fun e he => List.mem_append_left _ (k3 e (List.mem_append_left _ he))⟩
          | ok u =>
            simp only
            rw [k2] at k1 ⊢
            refine ⟨GoodAt.finish engine _ _ _ name _ k1 hp ho ?_, rfl,
              fun e he => List.mem_append_left _
                (List.mem_append_left _ (k3 e (List.mem_append_left _ he)))⟩
            intro hn
            replace hn : name ∈ st.running := hn
            apply k3
            apply List.mem_append_right
            simp [hn]

theorem evaluate_good (engine : Engine) (depth : Nat) (script : Prog) :
    GoodAt engine (evaluate engine depth script).cache (evaluate engine depth script).running
      (evaluate engine depth script).trace := by
  have h0 : GoodAt engine State.init.cache State.init.running State.init.trace := by
    refine ⟨?_, ?_, ?_⟩
    · intro n hn; simp [State.init] at hn
    · intro n
      refine Or.inr (Or.inr ?_)
      simp [State.init, invocations]
    · intro n v hv; simp [State.init] at hv
  exact (runProg_preserves engine (require engine depth) (require_preserves engine depth)
    script State.init h0).1

/-! ## The claim about caching -/

/-- Claim C5, counterexample: Module `a` requires `./a` from its own body.  A top-level
`require("a")` with room for three nested calls invokes the factory of `a` three times, the
second and third time while the earlier invocations are still running (the cache entry is
written only after a factory has returned), until the call stack is exhausted. -/
theorem self_require_reinvokes :
    (evaluate standardEngine 3 selfRequiring).trace =
        [.invoke "a".toList false, .invoke "a".toList true, .invoke "a".toList true,
          .abort "a".toList, .abort "a".toList, .abort "a".toList] ∧
      invocations "a".toList (evaluate standardEngine 3 selfRequiring).trace = 3 := by
  decide

/-- The same bundle with the inner call inside `try ... catch`: every `require` call returns,
yet the factory of `a` is invoked three times, and the three calls return the exports of
three different module objects. -/
theorem self_require_caught_reinvokes :
    (evaluate standardEngine 3 selfRequiringCaught).trace =
      [.invoke "a".toList false, .invoke "a".toList true, .invoke "a".toList true,
        .finish "a".toList, .returned "a".toList (.exportsOf ⟨"a".toList, 2⟩),
        .finish "a".toList, .returned "a".toList (.exportsOf ⟨"a".toList, 1⟩),
        .finish "a".toList, .returned "a".toList (.exportsOf ⟨"a".toList, 0⟩)] := by
  decide

/-- A factory that ends by an exception leaves no cache entry: required twice, the factory
of `b` is invoked twice, neither time while already running. -/
theorem failed_factory_reinvoked :
    (evaluate standardEngine 3 failingTwice).trace =
      [.invoke "b".toList false, .abort "b".toList, .invoke "b".toList false,
        .abort "b".toList] := by
  decide

/-- Names inherited from `Object.prototype`: with a module registered as `toString`, the
calls `require("toString")` and `require("__proto__")` return `undefined` without invoking
any factory, and the unregistered name `nope` is reported as not found. -/
theorem inherited_names_not_instantiated :
    (evaluate standardEngine 3 (.register "toString".toList (requiring [])
        (requireEach ["toString".toList, "__proto__".toList, "nope".toList]))).trace =
      [.returned "toString".toList .undefined, .returned "__proto__".toList .undefined] := by
  decide

/-- Claim C5, amended: In every evaluation (any engine, any call stack depth, any script and
any registered module bodies, which may call `require` through `localRequire` closures or
`window.require`, catch exceptions, register modules and depend on other state), a module
whose factory is never invoked while an earlier invocation of it is still running has its
factory invoked at most once provided no invocation of it ends by an exception, and every
`require` call of its name that returns, nested calls included, returns the `exports` of the
same module object. -/
theorem factory_invoked_once (engine : Engine) (depth : Nat) (script : Prog) (n : Str)
    (hnest : Event.invoke n true ∉ (evaluate engine depth script).trace) :
    (Event.abort n ∉ (evaluate engine depth script).trace →
        invocations n (evaluate engine depth script).trace ≤ 1) ∧
      ∀ v w, Event.returned n v ∈ (evaluate engine depth script).trace →
        Event.returned n w ∈ (evaluate engine depth script).trace → v = w := by
  obtain ⟨_, g2, g3⟩ := evaluate_good engine depth script
  constructor
  · intro habort
    rcases g2 n with h | h | h
    · exact absurd h hnest
    · exact absurd h habort
    · exact h.1
  · intro v w hv hw
    rcases g3 n v hv with h1 | h1
    · exact absurd h1 hnest
    · rcases g3 n w hw with h2 | h2
      · exact absurd h2 hnest
      · rw [h1] at h2
        exact Option.some.inj h2

/-- Witness for claim C5: the module `util` of the bundle `sampleBundle`, required twice at
top level and from two module bodies. -/
theorem factory_invoked_once_witness :
    Event.invoke "util".toList true ∉ (evaluate standardEngine 4 sampleBundle).trace ∧
      Event.abort "util".toList ∉ (evaluate standardEngine 4 sampleBundle).trace ∧
      invocations "util".toList (evaluate standardEngine 4 sampleBundle).trace ≤ 1 ∧
      ∀ v w, Event.returned "util".toList v ∈ (evaluate standardEngine 4 sampleBundle).trace →
        Event.returned "util".toList w ∈ (evaluate standardEngine 4 sampleBundle).trace →
        v = w :=
  ⟨by decide, by decide,
   (factory_invoked_once standardEngine 4 sampleBundle "util".toList (by decide)).1 (by decide),
   (factory_invoked_once standardEngine 4 sampleBundle "util".toList (by decide)).2⟩

end Loader
